import Mathlib

/-!
Verification development for the glow-effect video pipeline
(`glow_effect.cpp` and the TensorRT inference routines).

The development shallowly embeds the pixel-level compositing functions
(`glow_blow`, `convert_mask_to_rgba_buffer`, `mix_images`), the
triple-buffered mipmap pipeline, the batching/padding and
partitioning logic of the concurrent inference entry points, the write
sequence of `glow_effect_video`, and the per-worker post-processing loop
of `measure_segmentation_trt_performance_single_batch_parallel`.

Images are grids of pixels (lists of rows).  8-bit machine values are
modelled as `Nat` with explicit truncation (`% 256`) exactly where the
source narrows an `int` to `uchar`; signed quantities such as the key
level and the tolerance are `Int`, matching the `int` arithmetic of the
source.  External collaborators (the mipmap filter kernel, the inference
engine) are abstract function parameters.
-/

namespace GlowEffect

/-- One RGBA pixel, four 8-bit channels (`uchar4` / `cv::Vec4b`). -/
structure Pix where
  b : Nat
  g : Nat
  r : Nat
  a : Nat
deriving DecidableEq

/-- An image is a list of rows. -/
abbrev Image (α : Type) := List (List α)

/-- The row lengths of an image; two `cv::Mat`s have equal `size()` iff
their shapes agree. -/
def shape (img : Image α) : List Nat := img.map List.length

/-- Pixel access `img.at(i, j)`, `none` when out of bounds. -/
def pixelAt (img : Image α) (i j : Nat) : Option α :=
  (img.get? i).bind fun row => row.get? j

/-- Three-way zip, used to traverse three same-shaped images together. -/
def zipWith3 (f : α → β → γ → δ) : List α → List β → List γ → List δ
  | a :: as, b :: bs, c :: cs => f a b c :: zipWith3 f as bs cs
  | _, _, _ => []

theorem zipWith3_get? (f : α → β → γ → δ) :
    ∀ (as : List α) (bs : List β) (cs : List γ) (i : Nat),
      (zipWith3 f as bs cs).get? i =
        (as.get? i).bind fun a => (bs.get? i).bind fun b =>
          (cs.get? i).map fun c => f a b c := by
  intro as
  induction as with
  | nil => intro bs cs i; cases bs <;> cases cs <;> cases i <;> simp [zipWith3]
  | cons a as ih =>
    intro bs cs i
    cases bs with
    | nil => cases cs <;> cases i <;> simp [zipWith3]
    | cons b bs =>
      cases cs with
      | nil => cases i <;> simp [zipWith3]
      | cons c cs =>
        cases i with
        | zero => simp [zipWith3]
        | succ n => simpa [zipWith3] using ih bs cs n

theorem zipWith3_length (f : α → β → γ → δ) :
    ∀ (as : List α) (bs : List β) (cs : List γ),
      (zipWith3 f as bs cs).length = min as.length (min bs.length cs.length) := by
  intro as
  induction as with
  | nil => intro bs cs; cases bs <;> cases cs <;> simp [zipWith3]
  | cons a as ih =>
    intro bs cs
    cases bs with
    | nil => cases cs <;> simp [zipWith3]
    | cons b bs =>
      cases cs with
      | nil => simp [zipWith3]
      | cons c cs => simp [zipWith3, ih, Nat.succ_min_succ]

/-! Section: `glow_blow` (the `highlight` operation) -/

/-- The opaque overlay colour written by `glow_blow`. -/
def overlayColor : Pix := ⟨128, 0, 128, 255⟩

/-- A fully transparent pixel (the `cv::Mat::zeros` background). -/
def transparentPix : Pix := ⟨0, 0, 0, 0⟩

/-- Per-pixel decision of `glow_blow`: the overlay colour iff
`|mask_pixel - param_KeyLevel| < Delta` (`int` arithmetic), zeros
otherwise. -/
def glowPix (keyLevel delta : Int) (v : Nat) : Pix :=
  if |(v : Int) - keyLevel| < delta then overlayColor else transparentPix

/-- The function `glow_blow(mask, dst_rgba, param_KeyLevel, Delta)`: maps every mask
pixel through `glowPix` (the destination starts as zeros and only matched
pixels are overwritten with the overlay colour). -/
def glow_blow (mask : Image Nat) (keyLevel delta : Int) : Image Pix :=
  mask.map (List.map (glowPix keyLevel delta))

/-- Number of pixels with nonzero alpha, for the end-to-end scenario. -/
def countNonTransparent (img : Image Pix) : Nat :=
  (img.map fun row => (row.filter fun p => p.a ≠ 0).length).sum

/-! Section: `convert_mask_to_rgba_buffer` (also the inline conversion in
`apply_mipmap_async` / `apply_mipmap`) -/

/-- Per-pixel conversion feeding the mipmap filter: exact equality with
the key level (`gray_value == param_KeyLevel`), not the tolerance test. -/
def rgbaOfGray (keyLevel : Int) (v : Nat) : Pix :=
  if (v : Int) = keyLevel then ⟨v, v, v, 255⟩ else ⟨0, 0, 0, 0⟩

/-- The function `convert_mask_to_rgba_buffer(mask, dst, w, h, param_KeyLevel)`. -/
def convert_mask_to_rgba_buffer (mask : Image Nat) (keyLevel : Int) : Image Pix :=
  mask.map (List.map (rgbaOfGray keyLevel))

/-! Section: `mix_images` (the `blend` operation) -/

/-- The weight narrowing `uchar alpha = (original_alpha * (int)param_KeyScale) >> 8;` — the
shift result is an `int` that is narrowed to `uchar`, i.e. reduced
mod 256 (not clamped). -/
def mixAlpha (luma scale : Nat) : Nat := ((luma * scale) >>> 8) % 256

/-- The clamp `min(255, max(0, temp_pixel))`; `max 0` is the identity on `Nat`. -/
def clampChan (t : Nat) : Nat := min 255 t

/-- One blended channel: `(src*(255-alpha) + dst*alpha) >> 8`, clamped. -/
def blendChan (alpha s d : Nat) : Nat :=
  clampChan ((s * (255 - alpha) + d * alpha) >>> 8)

/-- One blended pixel of `mix_images`. -/
def blendPix (luma scale : Nat) (s d : Pix) : Pix :=
  { b := blendChan (mixAlpha luma scale) s.b d.b
    g := blendChan (mixAlpha luma scale) s.g d.g
    r := blendChan (mixAlpha luma scale) s.r d.r
    a := blendChan (mixAlpha luma scale) s.a d.a }

/-- The function `mix_images(src, dst_rgba, mipmap_result, output, param_KeyScale)`:
fails on empty inputs or mismatched dimensions, otherwise blends per
pixel using the (single-channel) mipmap value as the weight source.
`scale` is the value of `static_cast<int>(param_KeyScale)`. -/
def mix_images (src ov : Image Pix) (mip : Image Nat) (scale : Nat) :
    Option (Image Pix) :=
  if src.isEmpty || ov.isEmpty || mip.isEmpty then none
  else if shape src = shape ov ∧ shape src = shape mip then
    some (zipWith3
      (fun srow orow mrow => zipWith3 (fun s o m => blendPix m scale s o) srow orow mrow)
      src ov mip)
  else none

/-- Spec-side definition for the refinement comparison of claim C2: per-pixel weight
`(mipmapLuma * intensityScale) >> 8` CLAMPED to `[0,255]`, output channel
`(src*(255-weight) + overlay*weight) >> 8` clamped to `[0,255]`; inputs
of differing dimensions fail.  Stated from the spec's words for
comparison with `mix_images`. -/
def specWeight (luma scale : Nat) : Nat := min 255 ((luma * scale) >>> 8)

/-- Spec-side blended channel (see `specWeight`). -/
def specChan (w s o : Nat) : Nat := min 255 ((s * (255 - w) + o * w) >>> 8)

/-- Spec-side blended pixel (see `specWeight`). -/
def specBlendPix (luma scale : Nat) (s o : Pix) : Pix :=
  { b := specChan (specWeight luma scale) s.b o.b
    g := specChan (specWeight luma scale) s.g o.g
    r := specChan (specWeight luma scale) s.r o.r
    a := specChan (specWeight luma scale) s.a o.a }

/-- Spec-side blend of three same-shaped images (see `specWeight`). -/
def specMixImages (src ov : Image Pix) (mip : Image Nat) (scale : Nat) :
    Option (Image Pix) :=
  if shape src = shape ov ∧ shape src = shape mip then
    some (zipWith3
      (fun srow orow mrow => zipWith3 (fun s o m => specBlendPix m scale s o) srow orow mrow)
      src ov mip)
  else none

/-! Section: Claims C1 and C2: the blend arithmetic -/

/-- What one channel becomes when the blend weight is zero:
`(c*255) >> 8` (clamped), which is `c - 1` for `1 ≤ c ≤ 255`. -/
def dimChan (c : Nat) : Nat := min 255 ((c * 255) >>> 8)

/-- The map `dimChan` applied to all four channels. -/
def dimPix (p : Pix) : Pix := ⟨dimChan p.b, dimChan p.g, dimChan p.r, dimChan p.a⟩

theorem blendPix_scale_zero (s o : Pix) (m : Nat) : blendPix m 0 s o = dimPix s := by
  simp [blendPix, mixAlpha, blendChan, dimPix, dimChan, clampChan]

theorem blendRow_scale_zero :
    ∀ (srow orow : List Pix) (mrow : List Nat),
      srow.length = orow.length → srow.length = mrow.length →
      zipWith3 (fun s o m => blendPix m 0 s o) srow orow mrow = srow.map dimPix := by
  intro srow
  induction srow with
  | nil => intro orow mrow _ _; simp [zipWith3]
  | cons s srow ih =>
    intro orow mrow h1 h2
    cases orow with
    | nil => simp at h1
    | cons o orow =>
      cases mrow with
      | nil => simp at h2
      | cons m mrow =>
        show blendPix m 0 s o :: zipWith3 _ srow orow mrow
          = dimPix s :: List.map dimPix srow
        rw [blendPix_scale_zero]
        exact congrArg _ (ih orow mrow (by simpa using h1) (by simpa using h2))

theorem blendGrid_scale_zero :
    ∀ (src ov : Image Pix) (mip : Image Nat),
      shape src = shape ov → shape src = shape mip →
      zipWith3
        (fun srow orow mrow => zipWith3 (fun s o m => blendPix m 0 s o) srow orow mrow)
        src ov mip = src.map (List.map dimPix) := by
  intro src
  induction src with
  | nil => intro ov mip _ _; simp [zipWith3]
  | cons srow src ih =>
    intro ov mip h1 h2
    cases ov with
    | nil => simp [shape] at h1
    | cons orow ov =>
      cases mip with
      | nil => simp [shape] at h2
      | cons mrow mip =>
        simp only [shape, List.map_cons, List.cons.injEq] at h1 h2
        simp only [zipWith3, List.map_cons]
        refine congrArg₂ _ (blendRow_scale_zero srow orow mrow h1.1 h2.1) ?_
        exact ih ov mip (by simpa [shape] using h1.2) (by simpa [shape] using h2.2)

theorem shape_glow_blow (mask : Image Nat) (K Δ : Int) :
    shape (glow_blow mask K Δ) = shape mask := by
  simp [shape, glow_blow, List.map_map, Function.comp]

theorem mix_images_eq_some (src ov : Image Pix) (mip : Image Nat) (scale : Nat)
    (hne : src ≠ []) (h1 : shape src = shape ov) (h2 : shape src = shape mip) :
    mix_images src ov mip scale =
      some (zipWith3
        (fun srow orow mrow => zipWith3 (fun s o m => blendPix m scale s o) srow orow mrow)
        src ov mip) := by
  obtain ⟨s0, stl, rfl⟩ := List.exists_cons_of_ne_nil hne
  cases ov with
  | nil => simp [shape] at h1
  | cons o0 otl =>
    cases mip with
    | nil => simp [shape] at h2
    | cons m0 mtl =>
      have h3 : shape (o0 :: otl) = shape (m0 :: mtl) := h1 ▸ h2
      simp [mix_images, h1, h2, h3]

/-- Claim C1 (corrected): with `intensityScale = 0` the blend does NOT
return the original frame: every channel becomes `(src*255) >> 8`, i.e.
`src - 1` for any channel value `≥ 1`.  Concretely a pure-255 frame comes
back as 254. -/
theorem claim_C1_counterexample :
    mix_images [[⟨255, 255, 255, 255⟩]] (glow_blow [[60]] 56 20) [[0]] 0
      ≠ some [[⟨255, 255, 255, 255⟩]] := by decide

/-- Claim C1 (amended): `highlight` followed by `blend` with
`intensityScale = 0` yields a frame with no overlay contribution (the
result does not depend on the mask or the mipmap data) whose channels
are `(src*255) >> 8` — `src - 1` on every channel value `≥ 1` — rather
than the original values. -/
theorem claim_C1_roundtrip_amended (src : Image Pix) (mask mip : Image Nat) (K Δ : Int)
    (hne : src ≠ []) (hm : shape src = shape mask) (hp : shape src = shape mip) :
    mix_images src (glow_blow mask K Δ) mip 0 = some (src.map (List.map dimPix)) := by
  have hov : shape src = shape (glow_blow mask K Δ) := by rw [shape_glow_blow]; exact hm
  rw [mix_images_eq_some src _ mip 0 hne hov hp]
  exact congrArg some (blendGrid_scale_zero src _ mip hov hp)

theorem claim_C1_roundtrip_amended_witness :
    mix_images [[⟨255, 255, 255, 255⟩]] (glow_blow [[60]] 56 20) [[0]] 0
      = some [[⟨254, 254, 254, 254⟩]] := by
  have h := claim_C1_roundtrip_amended [[⟨255, 255, 255, 255⟩]] [[60]] [[0]] 56 20
    (by decide) (by decide) (by decide)
  simpa using h

/-- Claim C2 (corrected): on a pixel with mipmap luma 255 and
`intensityScale = 600` the code's weight is `((255*600) >> 8) % 256 = 85`
(an `int`-to-`uchar` narrowing, i.e. reduction mod 256), while the
claim's clamped weight is 255, so the outputs differ. -/
theorem claim_C2_counterexample :
    mix_images [[⟨255, 255, 255, 255⟩]] [[⟨0, 0, 0, 0⟩]] [[255]] 600
      ≠ specMixImages [[⟨255, 255, 255, 255⟩]] [[⟨0, 0, 0, 0⟩]] [[255]] 600 := by decide

/-- Claim C2 (amended): `mix_images` fails with a size-mismatch error
when the three inputs do not share identical dimensions; on matching
nonempty inputs every output pixel is
`blendPix`, whose weight is `((mipmapLuma * intensityScale) >> 8) % 256`
(narrowed to `uchar`, NOT clamped) and whose channels are
`(src*(255-weight) + overlay*weight) >> 8` clamped to `[0,255]`. -/
theorem claim_C2_blend_amended (src ov : Image Pix) (mip : Image Nat) (scale : Nat) :
    (¬ (shape src = shape ov ∧ shape src = shape mip) →
        mix_images src ov mip scale = none)
    ∧ (src ≠ [] → shape src = shape ov → shape src = shape mip →
        ∀ i j s o m, pixelAt src i j = some s → pixelAt ov i j = some o →
          pixelAt mip i j = some m →
          ((mix_images src ov mip scale).bind fun out => pixelAt out i j)
            = some (blendPix m scale s o)) := by
  constructor
  · intro h
    unfold mix_images
    split <;> rfl
  · intro hne h1 h2 i j s o m hs ho hm
    rw [mix_images_eq_some src ov mip scale hne h1 h2]
    unfold pixelAt at hs ho hm
    obtain ⟨srow, hsrow, hsj⟩ := Option.bind_eq_some.mp hs
    obtain ⟨orow, horow, hoj⟩ := Option.bind_eq_some.mp ho
    obtain ⟨mrow, hmrow, hmj⟩ := Option.bind_eq_some.mp hm
    show pixelAt _ i j = _
    unfold pixelAt
    rw [zipWith3_get?, hsrow, horow, hmrow]
    show (zipWith3 _ srow orow mrow).get? j = _
    rw [zipWith3_get?, hsj, hoj, hmj]
    rfl

theorem claim_C2_blend_amended_witness :
    ((mix_images [[⟨255, 255, 255, 255⟩]] [[⟨0, 0, 0, 0⟩]] [[255]] 600).bind
        fun out => pixelAt out 0 0)
      = some (blendPix 255 600 ⟨255, 255, 255, 255⟩ ⟨0, 0, 0, 0⟩)
    ∧ mix_images [[⟨255, 255, 255, 255⟩]] [[], []] [[255]] 600 = none :=
  ⟨(claim_C2_blend_amended [[⟨255, 255, 255, 255⟩]] [[⟨0, 0, 0, 0⟩]] [[255]] 600).2
      (by decide) (by decide) (by decide) 0 0 ⟨255, 255, 255, 255⟩ ⟨0, 0, 0, 0⟩ 255
      (by decide) (by decide) (by decide),
   (claim_C2_blend_amended [[⟨255, 255, 255, 255⟩]] [[], []] [[255]] 600).1 (by decide)⟩

/-! Section: Claims C6 and C10: highlight tolerance vs exact match -/

theorem pixelAt_map_map (g : α → β) (img : Image α) (i j : Nat) :
    pixelAt (img.map (List.map g)) i j = (pixelAt img i j).map g := by
  unfold pixelAt
  rw [List.get?_map]
  cases h1 : img.get? i with
  | none => rfl
  | some row => exact List.get?_map g row j

/-- Claim C6: `glow_blow` marks pixel `p` with the opaque overlay colour
iff `|mask[p] - targetClass| < Delta` and leaves non-matched pixels fully
transparent; for target class 56 a mask with one pixel 60 and the rest 0
has exactly one non-transparent overlay pixel at `Delta = 20` and none at
`Delta = 2`. -/
theorem claim_C6_glow_blow_marks :
    (∀ (mask : Image Nat) (K Δ : Int) (i j : Nat) (v : Nat),
        pixelAt mask i j = some v →
        pixelAt (glow_blow mask K Δ) i j
          = some (if |(v : Int) - K| < Δ then overlayColor else transparentPix))
    ∧ overlayColor.a = 255 ∧ transparentPix.a = 0
    ∧ countNonTransparent (glow_blow [[60, 0], [0, 0]] 56 20) = 1
    ∧ countNonTransparent (glow_blow [[60, 0], [0, 0]] 56 2) = 0 := by
  refine ⟨?_, rfl, rfl, by decide, by decide⟩
  intro mask K Δ i j v hv
  rw [glow_blow, pixelAt_map_map, hv]
  rfl

theorem claim_C6_glow_blow_marks_witness :
    pixelAt (glow_blow [[60, 0], [0, 0]] 56 20) 0 0
      = some (if |((60 : Nat) : Int) - 56| < 20 then overlayColor else transparentPix) :=
  claim_C6_glow_blow_marks.1 [[60, 0], [0, 0]] 56 20 0 0 60 (by decide)

/-- Claim C10: the RGBA buffer fed to the mipmap filter uses exact
equality with the target class (`gray_value == param_KeyLevel`), not the
highlight tolerance: a pixel becomes `(v,v,v,255)` iff its value equals
the target exactly and `(0,0,0,0)` otherwise; in particular value 60
with target 56 is inside the `Delta = 20` highlight tolerance (the
`glowPix` test marks it) yet contributes a zero entry to the mipmap
source buffer. -/
theorem claim_C10_exact_match :
    (∀ (mask : Image Nat) (K : Int) (i j : Nat) (v : Nat),
        pixelAt mask i j = some v →
        pixelAt (convert_mask_to_rgba_buffer mask K) i j
          = some (if (v : Int) = K then Pix.mk v v v 255 else ⟨0, 0, 0, 0⟩))
    ∧ (∀ (K : Int) (v : Nat), (v : Int) ≠ K → rgbaOfGray K v = transparentPix)
    ∧ rgbaOfGray 56 60 = transparentPix
    ∧ glowPix 56 20 60 = overlayColor := by
  refine ⟨?_, ?_, by decide, by decide⟩
  · intro mask K i j v hv
    rw [convert_mask_to_rgba_buffer, pixelAt_map_map, hv]
    rfl
  · intro K v hvK
    simp [rgbaOfGray, transparentPix, hvK]

theorem claim_C10_exact_match_witness :
    pixelAt (convert_mask_to_rgba_buffer [[60, 56]] 56) 0 0
      = some (if ((60 : Nat) : Int) = 56 then Pix.mk 60 60 60 255 else ⟨0, 0, 0, 0⟩) :=
  claim_C10_exact_match.1 [[60, 56]] 56 0 0 60 (by decide)

/-! Section: Claims C4 and C7: the triple-buffered mipmap pipeline

`triple_buffered_mipmap_pipeline` runs the loop `for i in 0 .. N+1`:
when `i < N` it converts mask `i` into buffer slot `i % 3`, launches the
asynchronous filter on that slot's stream and records a completion
event; when `0 ≤ i - 2 < N` it polls the event of slot `(i-2) % 3` with
`cudaEventQuery` and, only if the query reports success, copies that
slot into output `i - 2` — an unready query leaves the output entry as
a default-constructed (empty) image.  The external filter kernel is the
abstract `f`; whether the event of result `j` has completed by harvest
time is the abstract oracle `ready j`. -/

/-- Issue phase of loop step `i` (convert + `apply_mipmap_async` +
`cudaEventRecord` into slot `i % 3`).  The slot is modelled as holding
the value the filter will have deposited once its event completes. -/
def tbIssue (f : α → β) (masks : List α) (N i : Nat)
    (bufs : List (Option β)) : List (Option β) :=
  if i < N then bufs.set (i % 3) ((masks.get? i).map f) else bufs

/-- Harvest phase of loop step `i`: poll the event of result `i - 2`
and copy the slot only when the query succeeded. -/
def tbHarvest (ready : Nat → Bool) (N i : Nat) (bufs : List (Option β))
    (out : List (Option β)) : List (Option β) :=
  if 2 ≤ i ∧ i - 2 < N then
    out ++ [if ready (i - 2) then (bufs.get? ((i - 2) % 3)).join else none]
  else out

/-- The loop body of `triple_buffered_mipmap_pipeline`, fuelled. -/
def tbLoop (f : α → β) (ready : Nat → Bool) (masks : List α) (N : Nat) :
    Nat → Nat → List (Option β) → List (Option β) → List (Option β)
  | 0, _, _, out => out
  | fuel + 1, i, bufs, out =>
    tbLoop f ready masks N fuel (i + 1) (tbIssue f masks N i bufs)
      (tbHarvest ready N i (tbIssue f masks N i bufs) out)

/-- The function `triple_buffered_mipmap_pipeline(resized_masks, W, H, scale, key)`:
3 rotating buffer slots, `N + 2` loop steps, outputs in index order
(`outputImages[i-2]`); `none` models a slot left as an empty image. -/
def triple_buffered_mipmap_pipeline (f : α → β) (ready : Nat → Bool)
    (masks : List α) : List (Option β) :=
  tbLoop f ready masks masks.length (masks.length + 2) 0 [none, none, none] []

/-- Loop invariant: the three slots hold the filter results of the last
three issued masks. -/
def tbInv (f : α → β) (masks : List α) (N i : Nat)
    (bufs : List (Option β)) : Prop :=
  bufs.length = 3 ∧
    ∀ j, j < N → j < i → i ≤ j + 3 →
      bufs.get? (j % 3) = some ((masks.get? j).map f)

theorem tbIssue_inv {f : α → β} {masks : List α} {N i : Nat}
    {bufs : List (Option β)} (hInv : tbInv f masks N i bufs) :
    tbInv f masks N (i + 1) (tbIssue f masks N i bufs) := by
  obtain ⟨hlen, hb⟩ := hInv
  unfold tbIssue
  by_cases hi : i < N
  · rw [if_pos hi]
    refine ⟨by simp [hlen], ?_⟩
    intro j hjN hji hij
    by_cases hji2 : j = i
    · subst hji2
      exact List.get?_set_eq_of_lt _ (by rw [hlen]; exact Nat.mod_lt _ (by omega))
    · have hne : i % 3 ≠ j % 3 := by omega
      rw [List.get?_set_ne _ _ hne]
      exact hb j hjN (by omega) (by omega)
  · rw [if_neg hi]
    exact ⟨hlen, fun j hjN hji hij => hb j hjN (by omega) (by omega)⟩

theorem tbLoop_spec (f : α → β) (ready : Nat → Bool) (masks : List α) (N : Nat) :
    ∀ fuel i bufs out, i + fuel = N + 2 → tbInv f masks N i bufs →
      tbLoop f ready masks N fuel i bufs out
        = out ++ (List.range' (i - 2) (N - (i - 2))).map
            (fun j => if ready j then (masks.get? j).map f else none) := by
  intro fuel
  induction fuel with
  | zero =>
    intro i bufs out hfi hInv
    have h1 : N - (i - 2) = 0 := by omega
    simp [tbLoop, h1, List.range']
  | succ fuel ih =>
    intro i bufs out hfi hInv
    have hInv2 := tbIssue_inv hInv
    show tbLoop f ready masks N fuel (i + 1) _ _ = _
    rw [ih (i + 1) _ _ (by omega) hInv2]
    unfold tbHarvest
    by_cases hc : 2 ≤ i ∧ i - 2 < N
    · rw [if_pos hc]
      obtain ⟨k, rfl⟩ : ∃ k, i = k + 2 := ⟨i - 2, by omega⟩
      have hk : k + 2 - 2 = k := by omega
      have hk1 : k + 1 + 2 - 2 = k + 1 := by omega
      have hslot := hInv2.2 k (by omega) (by omega) (by omega)
      have hbuf : (tbIssue f masks N (k + 2) bufs).get? (k % 3)
          = some ((masks.get? k).map f) := hslot
      rw [hk, hk1, hbuf]
      have hcount : N - k = (N - (k + 1)) + 1 := by omega
      rw [hcount, List.range'_succ]
      have hjoin : (some ((masks.get? k).map f)).join = (masks.get? k).map f := rfl
      simp [hjoin, List.append_assoc]
    · rw [if_neg hc]
      rcases Nat.lt_or_ge i 2 with h2 | h2
      · have e1 : i - 2 = 0 := by omega
        have e2 : i + 1 - 2 = 0 := by omega
        rw [e1, e2]
      · have e1 : N - (i - 2) = 0 := by omega
        have e2 : N - (i + 1 - 2) = 0 := by omega
        rw [e1, e2]
        simp [List.range']

theorem tb_pipeline_eq (f : α → β) (ready : Nat → Bool) (masks : List α) :
    triple_buffered_mipmap_pipeline f ready masks
      = (List.range' 0 masks.length).map
          (fun j => if ready j then (masks.get? j).map f else none) := by
  unfold triple_buffered_mipmap_pipeline
  have hInv : tbInv f masks masks.length 0 [none, none, none] :=
    ⟨rfl, fun j _ hj _ => absurd hj (Nat.not_lt_zero j)⟩
  have h := tbLoop_spec f ready masks masks.length (masks.length + 2) 0
    [none, none, none] [] (by omega) hInv
  simpa using h

theorem tb_pipeline_length (f : α → β) (ready : Nat → Bool) (masks : List α) :
    (triple_buffered_mipmap_pipeline f ready masks).length = masks.length := by
  rw [tb_pipeline_eq]; simp

theorem tb_pipeline_get? (f : α → β) (ready : Nat → Bool) (masks : List α)
    (j : Nat) (hj : j < masks.length) :
    (triple_buffered_mipmap_pipeline f ready masks).get? j
      = some (if ready j then (masks.get? j).map f else none) := by
  rw [tb_pipeline_eq, List.get?_map]
  have h := List.get?_range' 0 1 hj
  simp only [Nat.zero_add, Nat.one_mul] at h
  rw [h]
  rfl

/-- Claim C7: for `N` input masks through 3 rotating slots the output
list has one entry per mask in input order; the entry harvested for
index `j` is exactly the filter result of mask `j` (the mask submitted
two loop steps before its harvest, from slot `j % 3`); with every
completion query succeeding the output is the filtered mask list in
input order. -/
theorem claim_C7_tb_order (f : α → β) (ready : Nat → Bool) (masks : List α) :
    (triple_buffered_mipmap_pipeline f ready masks).length = masks.length
    ∧ (∀ j, j < masks.length →
        (triple_buffered_mipmap_pipeline f ready masks).get? j
          = some (if ready j then (masks.get? j).map f else none))
    ∧ triple_buffered_mipmap_pipeline f (fun _ => true) masks
        = masks.map (fun m => some (f m)) := by
  refine ⟨tb_pipeline_length f ready masks, tb_pipeline_get? f ready masks, ?_⟩
  apply List.ext
  intro n
  by_cases hn : n < masks.length
  · rw [tb_pipeline_get? f (fun _ => true) masks n hn, List.get?_map,
      List.get?_eq_get hn]
    rfl
  · rw [List.get?_eq_none.mpr, List.get?_eq_none.mpr]
    · simpa using hn
    · rw [tb_pipeline_length]
      omega

theorem claim_C7_tb_order_witness :
    (triple_buffered_mipmap_pipeline (fun n : Nat => n + 1)
        (fun j => j % 2 == 0) [10, 20, 30]).get? 2
      = some (if (2 % 2 == 0 : Bool) then (([10, 20, 30] : List Nat).get? 2).map
          (fun n => n + 1) else none) :=
  (claim_C7_tb_order (fun n : Nat => n + 1) (fun j => j % 2 == 0) [10, 20, 30]).2.1
    2 (by decide)

/-- Claim C4 (corrected): a harvest whose completion query reports
not-ready leaves its output slot as an empty image — the pipeline never
blocks.  Concretely, with one mask whose event is not complete at
harvest time the returned list is `[none]`: a slot left unfilled,
contradicting the claim that every returned slot is a completed filter
output. -/
theorem claim_C4_counterexample :
    triple_buffered_mipmap_pipeline (fun n : Nat => n + 1) (fun _ => false) [5]
      = [none] := by decide

/-- Claim C4 (amended): the pipeline returns exactly `N` slots in input
order; harvesting polls the completion event non-blockingly and, when
the poll reports not-ready, leaves the slot as an empty image instead of
blocking; a slot is filled iff its poll succeeded, and a filled slot
holds the completed mipmap filter output of its own mask. -/
theorem claim_C4_nonblocking_amended (f : α → β) (ready : Nat → Bool)
    (masks : List α) :
    (triple_buffered_mipmap_pipeline f ready masks).length = masks.length
    ∧ ∀ j, j < masks.length →
        ((ready j = false →
            (triple_buffered_mipmap_pipeline f ready masks).get? j = some none)
          ∧ (ready j = true →
            (triple_buffered_mipmap_pipeline f ready masks).get? j
              = some ((masks.get? j).map f))) := by
  constructor
  · exact tb_pipeline_length f ready masks
  · intro j hj
    constructor
    · intro hr
      rw [tb_pipeline_get? f ready masks j hj, hr]
      rfl
    · intro hr
      rw [tb_pipeline_get? f ready masks j hj, hr]
      rfl

theorem claim_C4_nonblocking_amended_witness :
    (triple_buffered_mipmap_pipeline (fun n : Nat => n + 1)
        (fun j => j == 1) [7, 8]).get? 0 = some none :=
  (((claim_C4_nonblocking_amended (fun n : Nat => n + 1)
      (fun j => j == 1) [7, 8]).2 0 (by decide)).1) (by decide)

/-! Section: Claim C5: sub-batch padding to the fixed batch of 4

`measure_segmentation_trt_performance_mul_concurrent`: a sub-batch with
fewer than 4 tensors is padded by replicating its last tensor
(`lastFrame.repeat`); after inference only the first `validCount`
results are converted and written back. -/

/-- Pad a (nonempty) sub-batch to exactly 4 entries by replicating its
last entry; a sub-batch of 4 or more is left unchanged. -/
def padTo4 : List α → List α
  | [] => []
  | x :: xs =>
    if (x :: xs).length < 4 then
      (x :: xs) ++ List.replicate (4 - (x :: xs).length)
        ((x :: xs).getLast (List.cons_ne_nil x xs))
    else x :: xs

/-- Per-thread result surfacing: run the (per-image) inference `f` over
the padded sub-batch and keep only the first `validCount` results. -/
def surfaceResults (f : α → β) (sub : List α) : List β :=
  ((padTo4 sub).map f).take sub.length

theorem padTo4_eq_append (sub : List α) (h : sub ≠ []) :
    padTo4 sub = sub ++ List.replicate (4 - sub.length) (sub.getLast h) := by
  cases sub with
  | nil => exact absurd rfl h
  | cons x xs =>
    simp only [padTo4]
    by_cases hl : (x :: xs).length < 4
    · rw [if_pos hl]
    · rw [if_neg hl]
      have h0 : 4 - (x :: xs).length = 0 := by
        simp only [List.length_cons] at hl ⊢
        omega
      rw [h0]
      simp

theorem surfaceResults_eq_map (f : α → β) (sub : List α) :
    surfaceResults f sub = sub.map f := by
  cases sub with
  | nil => rfl
  | cons x xs =>
    unfold surfaceResults
    rw [padTo4_eq_append (x :: xs) (List.cons_ne_nil x xs), List.map_append]
    have hlen : (x :: xs).length = (List.map f (x :: xs)).length :=
      (List.length_map _ _).symm
    rw [hlen, List.take_left]

/-- Claim C5: a nonempty sub-batch of `validCount ≤ 4` tensors is padded
to exactly 4 images by replicating its last tensor, and only the first
`validCount` results are surfaced after inference, so the surfaced
output count equals `validCount`, not the padded size. -/
theorem claim_C5_padding (f : α → β) (sub : List α) (hne : sub ≠ [])
    (hle : sub.length ≤ 4) :
    (padTo4 sub).length = 4
    ∧ (padTo4 sub).take sub.length = sub
    ∧ (padTo4 sub).drop sub.length
        = List.replicate (4 - sub.length) (sub.getLast hne)
    ∧ surfaceResults f sub = sub.map f
    ∧ (surfaceResults f sub).length = sub.length := by
  have hpad := padTo4_eq_append sub hne
  have hpos : 0 < sub.length := List.length_pos.mpr hne
  refine ⟨?_, ?_, ?_, surfaceResults_eq_map f sub, ?_⟩
  · rw [hpad]
    simp only [List.length_append, List.length_replicate]
    omega
  · rw [hpad, List.take_left]
  · rw [hpad, List.drop_left]
  · rw [surfaceResults_eq_map]
    simp

theorem claim_C5_padding_witness :
    (padTo4 [7]).length = 4
    ∧ (padTo4 [7]).take 1 = [7]
    ∧ (padTo4 [7]).drop 1 = List.replicate 3 (([7] : List Nat).getLast (by decide))
    ∧ surfaceResults Nat.succ [7] = [8]
    ∧ (surfaceResults Nat.succ [7]).length = 1 :=
  claim_C5_padding Nat.succ [7] (by decide) (by decide)

/-! Section: Claim C9: partitioning work across worker threads

`measure_segmentation_trt_performance_mul_concurrent` (and the
single-batch-parallel variant) splits `totalBatch` images over a fixed
number of workers by `subBatch = (totalBatch + numWorkers - 1) /
numWorkers`; worker `t` handles `[t*subBatch, min((t+1)*subBatch,
totalBatch))` and, under the result mutex, writes result `i` of its
sub-range to `allResults[startIdx + i]`. -/

/-- The sub-batch size `subBatch = (totalBatch + numThreads - 1) / numThreads`. -/
def ceilDiv (B w : Nat) : Nat := (B + w - 1) / w

/-- The range start `startIdx = t * subBatch`. -/
def subStart (B w t : Nat) : Nat := t * ceilDiv B w

/-- The range end `endIdx = min(startIdx + subBatch, totalBatch)`. -/
def subStop (B w t : Nat) : Nat := min (subStart B w t + ceilDiv B w) B

/-- Worker `t`: surface the results of its sub-range and write them at
the same global indices (`allResults[startIdx + i] = localResults[i]`). -/
def threadWrite (f : α → β) (inputs : List α) (w t : Nat)
    (acc : List (Option β)) : List (Option β) :=
  (List.range (subStop inputs.length w t - subStart inputs.length w t)).foldl
    (fun a i => a.set (subStart inputs.length w t + i)
      ((surfaceResults f ((inputs.drop (subStart inputs.length w t)).take
        (subStop inputs.length w t - subStart inputs.length w t))).get? i))
    acc

/-- The assembled `allResults` after all worker threads have joined
(the writes target pairwise disjoint index ranges, so the thread
interleaving cannot affect the result; the model runs them in thread-id
order). -/
def measure_mul_concurrent_results (f : α → β) (inputs : List α) (w : Nat) :
    List (Option β) :=
  (List.range w).foldl (fun acc t => threadWrite f inputs w t acc)
    (List.replicate inputs.length none)

theorem get?_replicate_of_lt (a : γ) (n q : Nat) (h : q < n) :
    (List.replicate n a).get? q = some a := by
  rw [List.get?_eq_get (by simpa using h)]
  simp

theorem foldl_set_length (v : Nat → Option β) (start : Nat) :
    ∀ (l : List Nat) (acc : List (Option β)),
      (l.foldl (fun a i => a.set (start + i) (v i)) acc).length = acc.length := by
  intro l
  induction l with
  | nil => intro acc; rfl
  | cons x xs ih =>
    intro acc
    rw [List.foldl_cons, ih]
    simp

theorem foldl_set_get? (v : Nat → Option β) (start : Nat) :
    ∀ (n : Nat) (acc : List (Option β)) (q : Nat),
      ((List.range n).foldl (fun a i => a.set (start + i) (v i)) acc).get? q
        = if start ≤ q ∧ q < start + n ∧ q < acc.length
          then some (v (q - start)) else acc.get? q := by
  intro n
  induction n with
  | zero =>
    intro acc q
    rw [if_neg (by omega)]
    rfl
  | succ n ih =>
    intro acc q
    rw [List.range_succ, List.foldl_append, List.foldl_cons, List.foldl_nil]
    have hPlen : ((List.range n).foldl
        (fun a i => a.set (start + i) (v i)) acc).length = acc.length :=
      foldl_set_length v start (List.range n) acc
    by_cases hq : q = start + n
    · subst hq
      by_cases hlen : start + n < acc.length
      · rw [List.get?_set_eq_of_lt _ (by rw [hPlen]; exact hlen),
          if_pos (by omega)]
        rw [show start + n - start = n from by omega]
      · rw [List.get?_eq_none.mpr (by simp [hPlen]; omega), if_neg (by omega),
          List.get?_eq_none.mpr (by omega)]
    · rw [List.get?_set_ne _ _ (by omega : start + n ≠ q), ih acc q]
      by_cases hc1 : start ≤ q ∧ q < start + n ∧ q < acc.length
      · rw [if_pos hc1, if_pos (by omega)]
      · rw [if_neg hc1, if_neg (by omega)]

theorem threadWrite_length (f : α → β) (inputs : List α) (w t : Nat)
    (acc : List (Option β)) :
    (threadWrite f inputs w t acc).length = acc.length :=
  foldl_set_length _ _ _ acc

theorem threadWrite_get? (f : α → β) (inputs : List α) (w t : Nat)
    (acc : List (Option β)) (hlen : acc.length = inputs.length) (q : Nat) :
    (threadWrite f inputs w t acc).get? q
      = if subStart inputs.length w t ≤ q ∧ q < subStop inputs.length w t
        then (inputs.get? q).map (fun x => some (f x))
        else acc.get? q := by
  unfold threadWrite
  rw [foldl_set_get?]
  have hstopB : subStop inputs.length w t ≤ inputs.length := Nat.min_le_right _ _
  by_cases hc : subStart inputs.length w t ≤ q ∧ q < subStop inputs.length w t
  · have hqB : q < inputs.length := by omega
    rw [if_pos (by omega), if_pos hc]
    rw [surfaceResults_eq_map, List.get?_map, List.get?_take (by omega),
      List.get?_drop,
      show subStart inputs.length w t + (q - subStart inputs.length w t) = q
        from by omega]
    cases hx : inputs.get? q with
    | none =>
      have := List.get?_eq_none.mp hx
      omega
    | some x => rfl
  · rw [if_neg (by omega), if_neg hc]

theorem threads_fold_char (f : α → β) (inputs : List α) (w : Nat) :
    ∀ (cnt k : Nat) (acc : List (Option β)),
      acc.length = inputs.length →
      (∀ q, q < inputs.length →
        acc.get? q = if q < k * ceilDiv inputs.length w
          then (inputs.get? q).map (fun x => some (f x)) else some none) →
      ∀ q, q < inputs.length →
        ((List.range' k cnt).foldl (fun a t => threadWrite f inputs w t a)
            acc).get? q
          = if q < (k + cnt) * ceilDiv inputs.length w
            then (inputs.get? q).map (fun x => some (f x)) else some none := by
  intro cnt
  induction cnt with
  | zero =>
    intro k acc hlen hacc q hq
    rw [show k + 0 = k from rfl]
    exact hacc q hq
  | succ cnt ih =>
    intro k acc hlen hacc q hq
    rw [List.range'_succ, List.foldl_cons]
    have hlen2 : (threadWrite f inputs w k acc).length = inputs.length := by
      rw [threadWrite_length]; exact hlen
    have hmul : (k + 1) * ceilDiv inputs.length w
        = k * ceilDiv inputs.length w + ceilDiv inputs.length w :=
      Nat.succ_mul k _
    have hacc2 : ∀ q, q < inputs.length →
        (threadWrite f inputs w k acc).get? q
          = if q < (k + 1) * ceilDiv inputs.length w
            then (inputs.get? q).map (fun x => some (f x)) else some none := by
      intro q hq
      rw [threadWrite_get? f inputs w k acc hlen q]
      have hstart : subStart inputs.length w k = k * ceilDiv inputs.length w := rfl
      have hstop : subStop inputs.length w k
          = min (k * ceilDiv inputs.length w + ceilDiv inputs.length w)
              inputs.length := rfl
      by_cases h1 : subStart inputs.length w k ≤ q ∧ q < subStop inputs.length w k
      · rw [if_pos h1, if_pos (by rw [hstart, hstop] at h1; omega)]
      · rw [if_neg h1, hacc q hq]
        rw [hstart, hstop] at h1
        by_cases h2 : q < k * ceilDiv inputs.length w
        · rw [if_pos h2, if_pos (by omega)]
        · rw [if_neg h2, if_neg (by omega)]
    have := ih (k + 1) (threadWrite f inputs w k acc) hlen2 hacc2 q hq
    rw [this, show k + 1 + cnt = k + (cnt + 1) from by omega]

theorem threads_fold_length (f : α → β) (inputs : List α) (w : Nat) :
    ∀ (ts : List Nat) (acc : List (Option β)),
      ((ts.foldl (fun a t => threadWrite f inputs w t a) acc)).length
        = acc.length := by
  intro ts
  induction ts with
  | nil => intro acc; rfl
  | cons t ts ih =>
    intro acc
    rw [List.foldl_cons, ih, threadWrite_length]

theorem le_mul_ceilDiv (B w : Nat) (hw : 0 < w) : B ≤ w * ceilDiv B w := by
  unfold ceilDiv
  have hdm := Nat.div_add_mod (B + w - 1) w
  have hmlt : (B + w - 1) % w < w := Nat.mod_lt _ hw
  set q := (B + w - 1) / w
  set r := (B + w - 1) % w
  set X := w * q
  omega

/-- Claim C9: for `totalBatch ≥ 1` partitioned over `numWorkers ≥ 1` by
ceiling division, the per-worker contiguous ranges are pairwise disjoint
and cover every input index exactly once; each output index of the
assembled result holds the result computed from the same-index input,
so output ordering is preserved by index. -/
theorem claim_C9_partition (f : α → β) (inputs : List α) (w : Nat)
    (hB : 1 ≤ inputs.length) (hw : 0 < w) :
    (∀ i, i < inputs.length →
        ∃! t, t < w ∧ subStart inputs.length w t ≤ i
          ∧ i < subStop inputs.length w t)
    ∧ measure_mul_concurrent_results f inputs w
        = inputs.map (fun x => some (f x)) := by
  have hs : 0 < ceilDiv inputs.length w := by
    have := (Nat.le_div_iff_mul_le hw).mpr
      (show 1 * w ≤ inputs.length + w - 1 by omega)
    exact this
  have hws : inputs.length ≤ w * ceilDiv inputs.length w :=
    le_mul_ceilDiv inputs.length w hw
  constructor
  · intro i hi
    refine ⟨i / ceilDiv inputs.length w, ⟨?_, ?_, ?_⟩, ?_⟩
    · rw [Nat.div_lt_iff_lt_mul hs]
      exact Nat.lt_of_lt_of_le hi (Nat.mul_comm w _ ▸ hws)
    · exact Nat.div_mul_le_self i _
    · have hdm := Nat.div_add_mod i (ceilDiv inputs.length w)
      have hmlt : i % ceilDiv inputs.length w < ceilDiv inputs.length w :=
        Nat.mod_lt _ hs
      unfold subStop subStart
      rw [Nat.mul_comm (ceilDiv inputs.length w) (i / ceilDiv inputs.length w)]
        at hdm
      set X := i / ceilDiv inputs.length w * ceilDiv inputs.length w
      omega
    · intro t2 ht2
      obtain ⟨htw, hlo, hhi⟩ := ht2
      have hhi2 : i < (t2 + 1) * ceilDiv inputs.length w := by
        unfold subStop subStart at hhi
        rw [Nat.succ_mul]
        omega
      exact (Nat.div_eq_of_lt_le hlo hhi2).symm
  · have hchar := threads_fold_char f inputs w w 0
      (List.replicate inputs.length none) (by simp)
      (by
        intro q hq
        rw [if_neg (by simp), get?_replicate_of_lt _ _ _ hq])
    have hmain : ∀ q, q < inputs.length →
        (measure_mul_concurrent_results f inputs w).get? q
          = (inputs.get? q).map (fun x => some (f x)) := by
      intro q hq
      unfold measure_mul_concurrent_results
      rw [List.range_eq_range']
      have h1 := hchar q hq
      simp only [Nat.zero_add] at h1
      rw [h1, if_pos (Nat.lt_of_lt_of_le hq hws)]
    have hlen : (measure_mul_concurrent_results f inputs w).length
        = inputs.length := by
      unfold measure_mul_concurrent_results
      rw [threads_fold_length]
      simp
    apply List.ext
    intro q
    by_cases hq : q < inputs.length
    · rw [hmain q hq, List.get?_map]
    · rw [List.get?_eq_none.mpr (by rw [hlen]; omega),
        List.get?_eq_none.mpr (by rw [List.length_map]; omega)]

theorem claim_C9_partition_witness :
    measure_mul_concurrent_results Nat.succ [3, 4, 5] 2
      = [some 4, some 5, some 6] :=
  (claim_C9_partition Nat.succ [3, 4, 5] 2 (by decide) (by decide)).2

/-! Section: Claim C3: the write sequence of `glow_effect_video`

Each outer iteration of `glow_effect_video` first CLEARS `batch_frames`
and `original_frames`, then reads the next batch of 8 frames into them
(duplicating the last valid frame when the stream runs out), and only
then consumes the segmentation futures launched in the PREVIOUS
iteration — blending the previous batch's masks with the freshly read
`original_frames` and writing those 8 composites.  When the read comes
back empty the loop breaks and the still-pending futures are drained
against the already-cleared `original_frames`, so `original_frames[i]`
is an out-of-bounds access (undefined behaviour).  The model records,
for every `output_video.write`, the source index of the frame the
written composite was built from; `none` marks a write whose frame came
from the out-of-bounds access of the cleared vector. -/

/-- One batch read: 8 frames starting at `pos`, the last valid frame
`N - 1` duplicated once the stream is exhausted; empty when the first
read already fails. -/
def readBatch (N pos : Nat) : List Nat :=
  if pos < N then (List.range 8).map (fun i => min (pos + i) (N - 1)) else []

/-- The outer loop of `glow_effect_video`: read the next batch, emit the
8 pending writes (which use the CURRENT `original_frames`), launch the
futures for the current batch, repeat; on an empty read, drain the
pending futures against the cleared frame vector. -/
def videoLoop (N : Nat) : Nat → Nat → Bool → List (Option Nat)
  | 0, _, pending => if pending then List.replicate 8 none else []
  | fuel + 1, pos, pending =>
    if (readBatch N pos).isEmpty then
      if pending then List.replicate 8 none else []
    else
      (if pending then (readBatch N pos).map some else [])
        ++ videoLoop N fuel (pos + 8) true

/-- The full sequence of frame-source indices written by
`glow_effect_video` on an `N`-frame input. -/
def glow_effect_video_writes (N : Nat) : List (Option Nat) :=
  videoLoop N (N + 2) 0 false

/-- Claim C3 (code bug): the pipeline does NOT write each source frame
exactly once.  Because `original_frames` is cleared and refilled before
the previous batch's masks are consumed, the first batch's frames are
never emitted and the final drain indexes the cleared vector out of
bounds.  For `N = 8` no source frame at all is written (8 undefined
writes); for `N = 12` the writes are frames 8..11 (plus padding copies
of frame 11) followed by 8 undefined writes — frame 0 is never
written. -/
theorem claim_C3_video_write_bug :
    glow_effect_video_writes 8 = List.replicate 8 none
    ∧ glow_effect_video_writes 12
        = [some 8, some 9, some 10, some 11, some 11, some 11, some 11, some 11]
          ++ List.replicate 8 none
    ∧ some 0 ∉ glow_effect_video_writes 12 := by decide

/-! Section: Claim C8: CUDA-graph capture fallback for the argmax step

In `measure_segmentation_trt_performance_single_batch_parallel` each
worker loops over its images; every iteration allocates fresh device
buffers for the raw scores (`d_outputs`) and the mask
(`d_argmax_output`), runs inference, and post-processes with an argmax.
The post-processing graph is captured once, on the first image, and
records the argmax kernel on THAT image's buffers; both buffers are
freed at the end of every iteration.  On later images a captured graph
is replayed — against the first image's freed addresses — while the
host copy reads the current, never-written mask buffer.  The heap model
below tracks buffers by allocation identity (a fresh id per
allocation; reads of freed or never-written buffers yield undefined
data, modelled as `none`). -/

/-- Fold state for locating the first index of the maximum score. -/
def idxOfMaxAux : List Int → Nat → Nat → Int → Nat
  | [], _, best, _ => best
  | x :: xs, cur, best, bestVal =>
    if bestVal < x then idxOfMaxAux xs (cur + 1) cur x
    else idxOfMaxAux xs (cur + 1) best bestVal

/-- First index of the maximum entry of a nonempty list (0 on `[]`). -/
def idxOfMax : List Int → Nat
  | [] => 0
  | x :: xs => idxOfMaxAux xs 1 0 x

/-- Modelled from the spec: the argmax post-processing kernel
(`launchArgmaxKernel`, whose implementation is not among these sources):
`mask[p] = argmax_c OutputTensor[c, p]` — the per-pixel class index of
the highest score.  Scores are class-major: `scores[c][p]`. -/
def argmaxReduce (scores : List (List Int)) : List Nat :=
  match scores with
  | [] => []
  | c0 :: _ =>
    (List.range c0.length).map fun p =>
      idxOfMax (scores.map fun row => row.getD p 0)

/-- Per-worker mutable state: an allocation counter, the live score and
mask buffers (content `none` = allocated but never written), the
captured graph's recorded buffer ids, and the capture flag. -/
structure WorkerState where
  nextId : Nat
  scoreHeap : List (Nat × Option (List (List Int)))
  maskHeap : List (Nat × Option (List Nat))
  graph : Option (Nat × Nat)
  captured : Bool

/-- Read a buffer: `none` when the id is not (or no longer) allocated. -/
def hlook (h : List (Nat × Option γ)) (k : Nat) : Option (Option γ) :=
  (h.find? fun p => p.1 == k).map fun p => p.2

/-- Write a buffer; writing a freed id is a no-op (the store lands in
memory the model no longer tracks). -/
def hsetBuf (h : List (Nat × Option γ)) (k : Nat) (v : Option γ) :
    List (Nat × Option γ) :=
  h.map fun p => if p.1 == k then (k, v) else p

/-- Free a buffer (`cudaFree`). -/
def hfreeBuf (h : List (Nat × Option γ)) (k : Nat) : List (Nat × Option γ) :=
  h.filter fun p => p.1 != k

/-- Replay (`cudaGraphLaunch`) of the captured post-processing graph: re-executes
the recorded argmax kernel on the RECORDED buffer ids.  If the recorded
score buffer has been freed, the kernel reads undefined data, so the
recorded destination receives undefined content. -/
def graphReplayWrite (st : WorkerState) : WorkerState :=
  match st.graph with
  | none => st
  | some (src, dst) =>
    match hlook st.scoreHeap src with
    | some (some sc) =>
      { st with maskHeap := hsetBuf st.maskHeap dst (some (argmaxReduce sc)) }
    | _ => { st with maskHeap := hsetBuf st.maskHeap dst none }

/-- One iteration of the worker's per-image loop: allocate the score and
mask buffers, run inference (the raw scores land in the score buffer),
attempt graph capture if not yet captured (`captureOk` says whether the
CUDA capture succeeds; on failure the worker silently falls back), then
post-process via graph replay or the eager kernel, copy the mask buffer
to the host and free both buffers. -/
def procImage (captureOk : Bool) (scores : List (List Int)) (st : WorkerState) :
    Option (List Nat) × WorkerState :=
  let a := st.nextId
  let b := st.nextId + 1
  let st1 : WorkerState :=
    { st with
      nextId := st.nextId + 2
      scoreHeap := (a, some scores) :: st.scoreHeap
      maskHeap := (b, none) :: st.maskHeap }
  let st2 : WorkerState :=
    if st1.captured then st1
    else if captureOk then { st1 with captured := true, graph := some (a, b) }
    else st1
  let st3 : WorkerState :=
    if st2.captured then graphReplayWrite st2
    else { st2 with maskHeap := hsetBuf st2.maskHeap b (some (argmaxReduce scores)) }
  let res : Option (List Nat) :=
    match hlook st3.maskHeap b with
    | some (some m) => some m
    | _ => none
  (res,
    { st3 with
      scoreHeap := hfreeBuf st3.scoreHeap a
      maskHeap := hfreeBuf st3.maskHeap b })

/-- The worker's loop over its assigned images. -/
def workerLoop (captureOk : Bool) : List (List (List Int)) → WorkerState →
    List (Option (List Nat))
  | [], _ => []
  | s :: rest, st =>
    (procImage captureOk s st).1 :: workerLoop captureOk rest (procImage captureOk s st).2

/-- A worker of
`measure_segmentation_trt_performance_single_batch_parallel`: masks
surfaced for its image list, starting from a fresh state. -/
def single_batch_parallel_worker (captureOk : Bool)
    (imgs : List (List (List Int))) : List (Option (List Nat)) :=
  workerLoop captureOk imgs ⟨0, [], [], none, false⟩

/-- Claim C8 (code bug): with graph capture succeeding on the first
image, the second image's graph replay re-runs the argmax on the first
image's freed buffers while the surfaced mask is read from the current,
never-written buffer — undefined content (`none`), NOT identical to the
mask of the fallback/eager path.  With capture failing (the fallback
branch) every image gets the correct argmax mask, so the fallback is
sound but the graph path it is claimed to match is not. -/
theorem claim_C8_graph_stale_buffers :
    single_batch_parallel_worker true [[[3, 1], [0, 5]], [[0, 7], [9, 2]]]
      = [some [0, 1], none]
    ∧ single_batch_parallel_worker false [[[3, 1], [0, 5]], [[0, 7], [9, 2]]]
      = [some [0, 1], some [1, 0]]
    ∧ argmaxReduce [[0, 7], [9, 2]] = [1, 0] := by decide

end GlowEffect
